import Mathlib

/-!
Shallow embedding of the `bits` crate (file `src/lib.rs`), which exposes the
single function `repack<T1, T2>(src, bits_in, bits_out, bits_limit)`.

Machine integers of type `T1` (resp. `T2`) are modelled as natural numbers
together with an explicit bit width `w1` (resp. `w2`); the Rust expression
`std::mem::size_of_val(&T::zero()) * 8` is exactly that width.  A
`TryFrom<usize>` / `TryFrom<T1>` conversion into a width-`w` unsigned type
succeeds exactly when the converted value is `< 2 ^ w`.  The Rust shift
operators `>>` and `<<` panic when the shift amount is not below the width of
the shifted operand, and indexing `dst[dst_i]` panics when the index is out of
bounds; these implicit panic conditions are modelled as dedicated error
values so that their unreachability can be stated and proved.
-/

namespace Bits

/-- The error surface of `repack`.  The first seven constructors correspond,
in order, to the seven `&'static str` error values of the source:
`"bits_in < 1 || bits_out < 1 || bits_limit < 1"`, `"bits_in > T1::size"`,
`"bits_out > T2::size"`, `"bits_limit % bits_out != 0"`,
`"can not convert usize to T1"`, `"can not convert usize to T2"`,
`"can not convert T1 to T2"`.  The three `panic*` constructors model the
implicit panics of the shift operators and of slice indexing, which the
source never guards explicitly. -/
inductive RepackError where
  | invalidParameter
  | sourceWidthExceeded
  | destWidthExceeded
  | limitNotAligned
  | shiftAmountToSourceTypeFailed
  | shiftAmountToDestTypeFailed
  | bitValueConversionFailed
  | panicShiftRightOverflow
  | panicShiftLeftOverflow
  | panicIndexOutOfBounds
  deriving DecidableEq

/-- The body of the loop `for i in 0..bits_limit` of `repack`
(`src/lib.rs`, lines 87-127), at global bit position `i`, acting on the
destination buffer `dst`.  Mirrors the source statement by statement:
the two shift-amount conversions, the guarded source read, the single-bit
extraction with its conversion to `T2`, and the `|=` into `dst[dst_i]`,
in the source's evaluation order. -/
def repackBody (w1 w2 : Nat) (src : List Nat) (bits_in bits_out : Nat)
    (dst : List Nat) (i : Nat) : Except RepackError (List Nat) :=
  let src_i := i / bits_in
  let src_b := i % bits_in
  let dst_i := i / bits_out
  let dst_b := i % bits_out
  if bits_in - src_b - 1 < 2 ^ w1 then
    let rsh := bits_in - src_b - 1
    if bits_out - dst_b - 1 < 2 ^ w2 then
      let lsh := bits_out - dst_b - 1
      let src_byte := if src_i < src.length then src.getD src_i 0 else 0
      if rsh < w1 then
        if (src_byte >>> rsh) &&& 1 < 2 ^ w2 then
          let src_bit := (src_byte >>> rsh) &&& 1
          if lsh < w2 then
            if dst_i < dst.length then
              Except.ok (dst.set dst_i (dst.getD dst_i 0 ||| ((src_bit <<< lsh) % 2 ^ w2)))
            else
              Except.error RepackError.panicIndexOutOfBounds
          else
            Except.error RepackError.panicShiftLeftOverflow
        else
          Except.error RepackError.bitValueConversionFailed
      else
        Except.error RepackError.panicShiftRightOverflow
    else
      Except.error RepackError.shiftAmountToDestTypeFailed
  else
    Except.error RepackError.shiftAmountToSourceTypeFailed

/-- The transform loop of `repack`: runs `repackBody` at positions
`i, i + 1, …, i + fuel - 1`, propagating the first error (the source's
early `return`). -/
def repackLoop (w1 w2 : Nat) (src : List Nat) (bits_in bits_out : Nat)
    (dst : List Nat) (i : Nat) : Nat → Except RepackError (List Nat)
  | 0 => Except.ok dst
  | fuel + 1 =>
    match repackBody w1 w2 src bits_in bits_out dst i with
    | Except.error e => Except.error e
    | Except.ok dst2 => repackLoop w1 w2 src bits_in bits_out dst2 (i + 1) fuel

/-- Shallow embedding of `repack` (`src/lib.rs`, lines 63-130): the four
validation checks in source order, then the allocation
`vec![T2::zero(); bits_limit / bits_out]`, then the transform loop over all
global bit positions `0 ≤ i < bits_limit`. -/
def repack (w1 w2 : Nat) (src : List Nat) (bits_in bits_out bits_limit : Nat) :
    Except RepackError (List Nat) :=
  if bits_in < 1 ∨ bits_out < 1 ∨ bits_limit < 1 then
    Except.error RepackError.invalidParameter
  else if bits_in > w1 then
    Except.error RepackError.sourceWidthExceeded
  else if bits_out > w2 then
    Except.error RepackError.destWidthExceeded
  else if bits_limit % bits_out ≠ 0 then
    Except.error RepackError.limitNotAligned
  else
    repackLoop w1 w2 src bits_in bits_out (List.replicate (bits_limit / bits_out) 0) 0 bits_limit

/-- The source bit feeding global bit position `i`: bit
`bits_in - i % bits_in - 1` of source element `i / bits_in`, out-of-range
source elements reading as `0`. -/
def specBit (src : List Nat) (bits_in i : Nat) : Bool :=
  Nat.testBit (src.getD (i / bits_in) 0) (bits_in - i % bits_in - 1)

/-- Invariant of the destination buffer after the loop has processed global
bit positions `0, …, n - 1`: the buffer has its allocated length `L`, and
bit `p` of element `j` is set exactly when it is a significant position
(`p < bits_out`), its global bit position `j * bits_out + (bits_out - 1 - p)`
has already been processed, and the corresponding source bit is `1`. -/
def loopInv (src : List Nat) (bits_in bits_out L n : Nat) (dst : List Nat) : Prop :=
  dst.length = L ∧
  ∀ j p, Nat.testBit (dst.getD j 0) p = true ↔
    j < L ∧ p < bits_out ∧ j * bits_out + (bits_out - 1 - p) < n ∧
      specBit src bits_in (j * bits_out + (bits_out - 1 - p)) = true

lemma getD_set_eq {l : List Nat} {k : Nat} (h : k < l.length) (v : Nat) :
    (l.set k v).getD k 0 = v := by
  rw [List.getD_eq_getElem?_getD, List.getElem?_set_self h]
  rfl

lemma getD_set_ne {l : List Nat} {k j : Nat} (h : k ≠ j) (v : Nat) :
    (l.set k v).getD j 0 = l.getD j 0 := by
  rw [List.getD_eq_getElem?_getD, List.getElem?_set_ne h, List.getD_eq_getElem?_getD]

lemma getD_replicate (L j : Nat) : (List.replicate L (0 : Nat)).getD j 0 = 0 := by
  rw [List.getD_eq_getElem?_getD, List.getElem?_replicate]
  split <;> rfl

lemma getD_eq_zero_of_le {l : List Nat} {k : Nat} (h : l.length ≤ k) : l.getD k 0 = 0 := by
  rw [List.getD_eq_getElem?_getD, List.getElem?_eq_none h]
  rfl

lemma div_mod_unique_aux {bo j r n : Nat} (hbo : 0 < bo) (hr : r < bo)
    (heq : j * bo + r = n) : j = n / bo ∧ r = n % bo := by
  subst heq
  refine ⟨?_, ?_⟩
  · rw [Nat.mul_comm j bo, Nat.mul_add_div hbo, Nat.div_eq_of_lt hr, Nat.add_zero]
  · rw [Nat.mul_comm j bo, Nat.mul_add_mod, Nat.mod_eq_of_lt hr]

lemma testBit_bit_shift (x rsh lsh p : Nat) :
    Nat.testBit (((x >>> rsh) &&& 1) <<< lsh) p = true ↔
      p = lsh ∧ Nat.testBit x rsh = true := by
  rw [Nat.testBit_shiftLeft, Nat.testBit_land, Nat.testBit_shiftRight]
  simp only [Bool.and_eq_true, decide_eq_true_eq,
    Nat.testBit_one_eq_true_iff_self_eq_zero, ge_iff_le]
  constructor
  · rintro ⟨h1, h2, h3⟩
    have hp : p = lsh := by omega
    subst hp
    exact ⟨rfl, by simpa using h2⟩
  · rintro ⟨h1, h2⟩
    subst h1
    exact ⟨Nat.le_refl _, by simpa using h2, by omega⟩

lemma bool_eq_of_iff {a b : Bool} (h : a = true ↔ b = true) : a = b := by
  revert h
  revert a b
  decide

/-- Processing one more global bit position preserves the loop invariant and
never errors once the four validation checks have passed. -/
lemma repackBody_step
    {w1 w2 bits_in bits_out bits_limit : Nat} {src dst : List Nat} {n : Nat}
    (h1 : 1 ≤ bits_in) (h2 : 1 ≤ bits_out)
    (hw1 : bits_in ≤ w1) (hw2 : bits_out ≤ w2)
    (ha : bits_limit % bits_out = 0) (hn : n < bits_limit)
    (hinv : loopInv src bits_in bits_out (bits_limit / bits_out) n dst) :
    ∃ dst2, repackBody w1 w2 src bits_in bits_out dst n = Except.ok dst2 ∧
      loopInv src bits_in bits_out (bits_limit / bits_out) (n + 1) dst2 := by
  obtain ⟨hlen, hbit⟩ := hinv
  have hrlt : bits_in - n % bits_in - 1 < bits_in := by omega
  have hllt : bits_out - n % bits_out - 1 < bits_out := by omega
  have hrw : bits_in - n % bits_in - 1 < w1 := lt_of_lt_of_le hrlt hw1
  have hlw : bits_out - n % bits_out - 1 < w2 := lt_of_lt_of_le hllt hw2
  have hr2 : bits_in - n % bits_in - 1 < 2 ^ w1 :=
    lt_of_lt_of_le hrw (le_of_lt (Nat.lt_two_pow w1))
  have hl2 : bits_out - n % bits_out - 1 < 2 ^ w2 :=
    lt_of_lt_of_le hlw (le_of_lt (Nat.lt_two_pow w2))
  have hsrcb : (if n / bits_in < src.length then src.getD (n / bits_in) 0 else 0)
      = src.getD (n / bits_in) 0 := by
    split
    · rfl
    · rw [getD_eq_zero_of_le (by omega)]
  have hone : 1 < 2 ^ w2 := Nat.one_lt_two_pow (by omega)
  have hmask : (src.getD (n / bits_in) 0 >>> (bits_in - n % bits_in - 1)) &&& 1 < 2 ^ w2 := by
    have h := Nat.and_le_right
      (n := src.getD (n / bits_in) 0 >>> (bits_in - n % bits_in - 1)) (m := 1)
    omega
  have hdvd : bits_out ∣ bits_limit := Nat.dvd_of_mod_eq_zero ha
  have hdsti : n / bits_out < bits_limit / bits_out := Nat.div_lt_div_of_lt_of_dvd hdvd hn
  have hmod : ((src.getD (n / bits_in) 0 >>> (bits_in - n % bits_in - 1)) &&& 1)
        <<< (bits_out - n % bits_out - 1) % 2 ^ w2
      = ((src.getD (n / bits_in) 0 >>> (bits_in - n % bits_in - 1)) &&& 1)
        <<< (bits_out - n % bits_out - 1) := by
    apply Nat.mod_eq_of_lt
    calc ((src.getD (n / bits_in) 0 >>> (bits_in - n % bits_in - 1)) &&& 1)
          <<< (bits_out - n % bits_out - 1)
        = ((src.getD (n / bits_in) 0 >>> (bits_in - n % bits_in - 1)) &&& 1)
          * 2 ^ (bits_out - n % bits_out - 1) := Nat.shiftLeft_eq _ _
      _ ≤ 1 * 2 ^ (bits_out - n % bits_out - 1) :=
          Nat.mul_le_mul_right _ Nat.and_le_right
      _ = 2 ^ (bits_out - n % bits_out - 1) := Nat.one_mul _
      _ < 2 ^ w2 := Nat.pow_lt_pow_of_lt (by omega) hlw
  have hbody : repackBody w1 w2 src bits_in bits_out dst n =
      Except.ok (dst.set (n / bits_out) (dst.getD (n / bits_out) 0 |||
        ((src.getD (n / bits_in) 0 >>> (bits_in - n % bits_in - 1)) &&& 1)
          <<< (bits_out - n % bits_out - 1))) := by
    simp only [repackBody, hsrcb]
    rw [if_pos hr2, if_pos hl2, if_pos hrw, if_pos hmask, if_pos hlw,
      if_pos (show n / bits_out < dst.length by omega), hmod]
  refine ⟨_, hbody, ?_, ?_⟩
  · simpa using hlen
  · intro j p
    have hmul : n / bits_out * bits_out + n % bits_out = n := by
      rw [Nat.mul_comm]
      exact Nat.div_add_mod n bits_out
    have hmlt : n % bits_out < bits_out := Nat.mod_lt _ (by omega)
    by_cases hj : j = n / bits_out
    · subst hj
      rw [getD_set_eq (by omega), Nat.testBit_lor, Bool.or_eq_true, hbit,
        testBit_bit_shift]
      simp only [specBit]
      constructor
      · rintro (⟨hjL, hp, hi0, hT⟩ | ⟨hpl, hT⟩)
        · exact ⟨hjL, hp, by omega, hT⟩
        · subst hpl
          have hi0 : n / bits_out * bits_out
              + (bits_out - 1 - (bits_out - n % bits_out - 1)) = n := by omega
          rw [hi0]
          exact ⟨hdsti, by omega, by omega, hT⟩
      · rintro ⟨hjL, hp, hi0, hT⟩
        by_cases hieq : n / bits_out * bits_out + (bits_out - 1 - p) = n
        · right
          obtain ⟨hq, hr⟩ := div_mod_unique_aux (by omega) (by omega) hieq
          rw [hieq] at hT
          exact ⟨by omega, hT⟩
        · left
          exact ⟨hjL, hp, by omega, hT⟩
    · rw [getD_set_ne (fun h => hj h.symm), hbit]
      constructor
      · rintro ⟨hjL, hp, hi0, hT⟩
        exact ⟨hjL, hp, by omega, hT⟩
      · rintro ⟨hjL, hp, hi0, hT⟩
        refine ⟨hjL, hp, ?_, hT⟩
        by_cases hieq : j * bits_out + (bits_out - 1 - p) = n
        · obtain ⟨hq, _⟩ := div_mod_unique_aux (by omega) (by omega) hieq
          exact absurd hq hj
        · omega

/-- Running the loop for `fuel` further positions from a state satisfying the
invariant succeeds and re-establishes the invariant. -/
lemma repackLoop_inv
    {w1 w2 bits_in bits_out bits_limit : Nat} {src : List Nat}
    (h1 : 1 ≤ bits_in) (h2 : 1 ≤ bits_out)
    (hw1 : bits_in ≤ w1) (hw2 : bits_out ≤ w2)
    (ha : bits_limit % bits_out = 0) :
    ∀ fuel n dst, n + fuel ≤ bits_limit →
      loopInv src bits_in bits_out (bits_limit / bits_out) n dst →
      ∃ out, repackLoop w1 w2 src bits_in bits_out dst n fuel = Except.ok out ∧
        loopInv src bits_in bits_out (bits_limit / bits_out) (n + fuel) out := by
  intro fuel
  induction fuel with
  | zero =>
    intro n dst _ hinv
    exact ⟨dst, rfl, by simpa using hinv⟩
  | succ fuel ih =>
    intro n dst hle hinv
    obtain ⟨dst2, hbody, hinv2⟩ :=
      repackBody_step h1 h2 hw1 hw2 ha (show n < bits_limit by omega) hinv
    obtain ⟨out, hloop, hinvout⟩ := ih (n + 1) dst2 (by omega) hinv2
    refine ⟨out, ?_, ?_⟩
    · simp only [repackLoop]
      rw [hbody]
      exact hloop
    · have h : n + 1 + fuel = n + (fuel + 1) := by omega
      rwa [h] at hinvout

/-- The freshly allocated all-zero buffer satisfies the invariant for `n = 0`. -/
lemma loopInv_init (src : List Nat) (bits_in bits_out L : Nat) :
    loopInv src bits_in bits_out L 0 (List.replicate L 0) := by
  refine ⟨List.length_replicate L 0, ?_⟩
  intro j p
  rw [getD_replicate, Nat.zero_testBit]
  simp only [Bool.false_eq_true, false_iff]
  rintro ⟨_, _, h, _⟩
  omega

/-- Master characterization: under the four validation conditions, `repack`
returns `Except.ok` and the output buffer satisfies the full bit-level
invariant at `n = bits_limit`. -/
lemma repack_valid
    {w1 w2 bits_in bits_out bits_limit : Nat} (src : List Nat)
    (h1 : 1 ≤ bits_in) (h2 : 1 ≤ bits_out) (h3 : 1 ≤ bits_limit)
    (hw1 : bits_in ≤ w1) (hw2 : bits_out ≤ w2)
    (ha : bits_limit % bits_out = 0) :
    ∃ dst, repack w1 w2 src bits_in bits_out bits_limit = Except.ok dst ∧
      loopInv src bits_in bits_out (bits_limit / bits_out) bits_limit dst := by
  obtain ⟨dst, hloop, hinv⟩ :=
    @repackLoop_inv w1 w2 bits_in bits_out bits_limit src h1 h2 hw1 hw2 ha
      bits_limit 0 (List.replicate (bits_limit / bits_out) 0) (by omega)
      (loopInv_init src bits_in bits_out (bits_limit / bits_out))
  refine ⟨dst, ?_, by simpa using hinv⟩
  rw [repack, if_neg (by omega), if_neg (by omega), if_neg (by omega),
    if_neg (by omega)]
  exact hloop

/-- Reading back global bit `i` from an output buffer that satisfies the final
invariant yields exactly the corresponding source-stream bit. -/
lemma loopInv_readBit
    {src : List Nat} {bits_in bits_out bits_limit : Nat} {dst : List Nat}
    (h2 : 1 ≤ bits_out) (ha : bits_limit % bits_out = 0)
    (hinv : loopInv src bits_in bits_out (bits_limit / bits_out) bits_limit dst)
    {i : Nat} (hi : i < bits_limit) :
    specBit dst bits_out i = specBit src bits_in i := by
  obtain ⟨hlen, hbit⟩ := hinv
  have hdvd : bits_out ∣ bits_limit := Nat.dvd_of_mod_eq_zero ha
  have hdsti : i / bits_out < bits_limit / bits_out := Nat.div_lt_div_of_lt_of_dvd hdvd hi
  have hmlt : i % bits_out < bits_out := Nat.mod_lt _ (by omega)
  have hmul : i / bits_out * bits_out + i % bits_out = i := by
    rw [Nat.mul_comm]
    exact Nat.div_add_mod i bits_out
  apply bool_eq_of_iff
  show Nat.testBit (dst.getD (i / bits_out) 0) (bits_out - i % bits_out - 1) = true ↔ _
  rw [hbit]
  have hi0 : i / bits_out * bits_out + (bits_out - 1 - (bits_out - i % bits_out - 1)) = i := by
    omega
  rw [hi0]
  constructor
  · rintro ⟨_, _, _, hT⟩
    exact hT
  · intro hT
    exact ⟨hdsti, by omega, hi, hT⟩

lemma list_eq_of_getD {l1 l2 : List Nat} (hlen : l1.length = l2.length)
    (h : ∀ j, l1.getD j 0 = l2.getD j 0) : l1 = l2 := by
  apply List.ext_getElem hlen
  intro n h1 h2
  have hn := h n
  rw [List.getD_eq_getElem?_getD, List.getD_eq_getElem?_getD,
    List.getElem?_eq_getElem h1, List.getElem?_eq_getElem h2] at hn
  simpa using hn

lemma le_ceil_mul (m bi : Nat) (h : 0 < bi) : m ≤ (m + bi - 1) / bi * bi := by
  rcases Nat.eq_zero_or_pos m with hm | hm
  · omega
  · have h1 : (m + bi - 1) / bi = (m - 1) / bi + 1 := by
      rw [show m + bi - 1 = m - 1 + bi from by omega, Nat.add_div_right _ h]
    rw [h1, Nat.add_mul, Nat.one_mul]
    have h2 := Nat.div_add_mod (m - 1) bi
    have h3 : (m - 1) % bi < bi := Nat.mod_lt _ h
    rw [Nat.mul_comm] at h2
    omega

/-- **C1** — For every call of `repack` that passes validation and every
global bit position `i < bits_limit`, the output element at index
`i / bits_out` carries, at left-shift position `bits_out - i % bits_out - 1`,
exactly the bit obtained from the source element at index `i / bits_in`
(taken as zero when `i / bits_in ≥ len src`) by right-shifting it by
`bits_in - i % bits_in - 1` and masking with `1`; and no other bit of any
output element is set. -/
theorem repack_bit_exact
    (w1 w2 bits_in bits_out bits_limit : Nat) (src : List Nat)
    (h1 : 1 ≤ bits_in) (h2 : 1 ≤ bits_out) (h3 : 1 ≤ bits_limit)
    (hw1 : bits_in ≤ w1) (hw2 : bits_out ≤ w2)
    (ha : bits_limit % bits_out = 0) :
    ∃ dst, repack w1 w2 src bits_in bits_out bits_limit = Except.ok dst ∧
      (∀ i, i < bits_limit →
        Nat.testBit (dst.getD (i / bits_out) 0) (bits_out - i % bits_out - 1) =
          decide ((((if i / bits_in < src.length then src.getD (i / bits_in) 0 else 0)
            >>> (bits_in - i % bits_in - 1)) &&& 1) = 1)) ∧
      (∀ j p, bits_out ≤ p → Nat.testBit (dst.getD j 0) p = false) := by
  obtain ⟨dst, hok, hinv⟩ := repack_valid src h1 h2 h3 hw1 hw2 ha
  refine ⟨dst, hok, ?_, ?_⟩
  · intro i hi
    have hread := loopInv_readBit h2 ha hinv hi
    have hguard : (if i / bits_in < src.length then src.getD (i / bits_in) 0 else 0)
        = src.getD (i / bits_in) 0 := by
      split
      · rfl
      · rw [getD_eq_zero_of_le (by omega)]
    rw [hguard]
    have hdec : ∀ (x r : Nat), decide (((x >>> r) &&& 1) = 1) = Nat.testBit x r := by
      intro x r
      rw [Nat.and_one_is_mod, Nat.shiftRight_eq_div_pow, Nat.testBit_to_div_mod]
    rw [hdec]
    exact hread
  · intro j p hp
    obtain ⟨hlen, hbit⟩ := hinv
    cases h : Nat.testBit (dst.getD j 0) p
    · rfl
    · exfalso
      obtain ⟨_, hplt, _, _⟩ := (hbit j p).mp h
      omega

/-- Witness for `repack_bit_exact` at the source's doc-example call
`repack(&[5u16, 5u16], 3, 2, 6)` with `T1 = u16`, `T2 = u8`. -/
theorem repack_bit_exact_witness :
    ∃ dst, repack 16 8 [5, 5] 3 2 6 = Except.ok dst ∧
      (∀ i, i < 6 →
        Nat.testBit (dst.getD (i / 2) 0) (2 - i % 2 - 1) =
          decide ((((if i / 3 < List.length [5, 5] then List.getD [5, 5] (i / 3) 0 else 0)
            >>> (3 - i % 3 - 1)) &&& 1) = 1)) ∧
      (∀ j p, 2 ≤ p → Nat.testBit (dst.getD j 0) p = false) :=
  repack_bit_exact 16 8 3 2 6 [5, 5] (by decide) (by decide) (by decide) (by decide)
    (by decide) (by decide)

/-- **C2** — `repack` validates its parameters in a fixed order before any
transform work, first failure winning: `InvalidParameter`, then
`SourceWidthExceeded`, then `DestWidthExceeded`, then `LimitNotAligned`; and
whenever all four checks pass it returns `Ok`, so these are exactly the
validation-error cases. -/
theorem repack_validation_order
    (w1 w2 bits_in bits_out bits_limit : Nat) (src : List Nat) :
    (bits_in < 1 ∨ bits_out < 1 ∨ bits_limit < 1 →
      repack w1 w2 src bits_in bits_out bits_limit =
        Except.error RepackError.invalidParameter) ∧
    (¬(bits_in < 1 ∨ bits_out < 1 ∨ bits_limit < 1) → bits_in > w1 →
      repack w1 w2 src bits_in bits_out bits_limit =
        Except.error RepackError.sourceWidthExceeded) ∧
    (¬(bits_in < 1 ∨ bits_out < 1 ∨ bits_limit < 1) → ¬bits_in > w1 → bits_out > w2 →
      repack w1 w2 src bits_in bits_out bits_limit =
        Except.error RepackError.destWidthExceeded) ∧
    (¬(bits_in < 1 ∨ bits_out < 1 ∨ bits_limit < 1) → ¬bits_in > w1 → ¬bits_out > w2 →
      bits_limit % bits_out ≠ 0 →
      repack w1 w2 src bits_in bits_out bits_limit =
        Except.error RepackError.limitNotAligned) ∧
    (¬(bits_in < 1 ∨ bits_out < 1 ∨ bits_limit < 1) → ¬bits_in > w1 → ¬bits_out > w2 →
      bits_limit % bits_out = 0 →
      ∃ dst, repack w1 w2 src bits_in bits_out bits_limit = Except.ok dst) := by
  refine ⟨?_, ?_, ?_, ?_, ?_⟩
  · intro h
    rw [repack, if_pos h]
  · intro h hx
    rw [repack, if_neg h, if_pos hx]
  · intro h hx hy
    rw [repack, if_neg h, if_neg hx, if_pos hy]
  · intro h hx hy hz
    rw [repack, if_neg h, if_neg hx, if_neg hy, if_pos hz]
  · intro h hx hy hz
    obtain ⟨dst, hok, _⟩ := @repack_valid w1 w2 bits_in bits_out bits_limit src
      (by omega) (by omega) (by omega) (by omega) (by omega) hz
    exact ⟨dst, hok⟩

/-- Witness for `repack_validation_order`: `bits_in = 0` is rejected as
`InvalidParameter` (the source's `test6`, with `bits_out` in range for `u8`). -/
theorem repack_validation_order_witness :
    repack 16 8 [5, 5] 0 2 6 = Except.error RepackError.invalidParameter :=
  (repack_validation_order 16 8 0 2 6 [5, 5]).1 (by decide)

/-- **C3** — whenever `repack` returns `Ok`, the output sequence has length
exactly `bits_limit / bits_out`. -/
theorem repack_output_length
    (w1 w2 bits_in bits_out bits_limit : Nat) (src dst : List Nat)
    (h : repack w1 w2 src bits_in bits_out bits_limit = Except.ok dst) :
    dst.length = bits_limit / bits_out := by
  by_cases h1 : bits_in < 1 ∨ bits_out < 1 ∨ bits_limit < 1
  · rw [repack, if_pos h1] at h
    exact Except.noConfusion h
  by_cases h2 : bits_in > w1
  · rw [repack, if_neg h1, if_pos h2] at h
    exact Except.noConfusion h
  by_cases h3 : bits_out > w2
  · rw [repack, if_neg h1, if_neg h2, if_pos h3] at h
    exact Except.noConfusion h
  by_cases h4 : bits_limit % bits_out ≠ 0
  · rw [repack, if_neg h1, if_neg h2, if_neg h3, if_pos h4] at h
    exact Except.noConfusion h
  · obtain ⟨dst2, hok, hlen, _⟩ := @repack_valid w1 w2 bits_in bits_out bits_limit src
      (by omega) (by omega) (by omega) (by omega) (by omega) (by omega)
    rw [hok] at h
    have hd : dst2 = dst := by
      injection h
    exact hd ▸ hlen

/-- Witness for `repack_output_length` at the source's doc example. -/
theorem repack_output_length_witness :
    repack 16 8 [5, 5] 3 2 6 = Except.ok [2, 3, 1] ∧
      List.length [2, 3, 1] = 6 / 2 :=
  ⟨rfl, repack_output_length 16 8 3 2 6 [5, 5] [2, 3, 1] rfl⟩

/-- **C6** — under the four validated preconditions none of the three
numeric-conversion error branches is ever taken: `repack` returns `Ok` for
every source sequence and every pair of widths `w1`, `w2` (every value below a
type's bit width, and the bit values `0` and `1`, are representable, i.e.
`< 2 ^ w`). -/
theorem repack_no_conversion_failure
    (w1 w2 bits_in bits_out bits_limit : Nat) (src : List Nat)
    (h1 : 1 ≤ bits_in) (h2 : 1 ≤ bits_out) (h3 : 1 ≤ bits_limit)
    (hw1 : bits_in ≤ w1) (hw2 : bits_out ≤ w2) (ha : bits_limit % bits_out = 0) :
    ∃ dst, repack w1 w2 src bits_in bits_out bits_limit = Except.ok dst := by
  obtain ⟨dst, hok, _⟩ := repack_valid src h1 h2 h3 hw1 hw2 ha
  exact ⟨dst, hok⟩

/-- Witness for `repack_no_conversion_failure`. -/
theorem repack_no_conversion_failure_witness :
    ∃ dst, repack 16 8 [5, 5] 3 2 6 = Except.ok dst :=
  repack_no_conversion_failure 16 8 3 2 6 [5, 5] (by decide) (by decide) (by decide)
    (by decide) (by decide) (by decide)

/-- **C9** — basic narrowing: `repack(&[5u16, 5u16], 3, 2, 6)` returns
`Ok([2u8, 3u8, 1u8])`: the bit stream `101101` split MSB-first into the 2-bit
groups `10`, `11`, `01`. -/
theorem repack_basic_narrowing :
    repack 16 8 [5, 5] 3 2 6 = Except.ok [2, 3, 1] := rfl

/-- **C10** — totality at the public interface: for every input whatsoever,
`repack` returns either `Ok` or one of the four validation errors; in
particular no panic branch (out-of-range shift or out-of-bounds index,
modelled as the `panic*` error values) and no conversion-failure branch is
ever reachable. -/
theorem repack_total_no_panic
    (w1 w2 bits_in bits_out bits_limit : Nat) (src : List Nat) :
    (∃ dst, repack w1 w2 src bits_in bits_out bits_limit = Except.ok dst) ∨
    repack w1 w2 src bits_in bits_out bits_limit =
      Except.error RepackError.invalidParameter ∨
    repack w1 w2 src bits_in bits_out bits_limit =
      Except.error RepackError.sourceWidthExceeded ∨
    repack w1 w2 src bits_in bits_out bits_limit =
      Except.error RepackError.destWidthExceeded ∨
    repack w1 w2 src bits_in bits_out bits_limit =
      Except.error RepackError.limitNotAligned := by
  by_cases h1 : bits_in < 1 ∨ bits_out < 1 ∨ bits_limit < 1
  · right
    left
    rw [repack, if_pos h1]
  by_cases h2 : bits_in > w1
  · right
    right
    left
    rw [repack, if_neg h1, if_pos h2]
  by_cases h3 : bits_out > w2
  · right
    right
    right
    left
    rw [repack, if_neg h1, if_neg h2, if_pos h3]
  by_cases h4 : bits_limit % bits_out ≠ 0
  · right
    right
    right
    right
    rw [repack, if_neg h1, if_neg h2, if_neg h3, if_pos h4]
  · left
    obtain ⟨dst, hok, _⟩ := @repack_valid w1 w2 bits_in bits_out bits_limit src
      (by omega) (by omega) (by omega) (by omega) (by omega) (by omega)
    exact ⟨dst, hok⟩

/-- **C5** — zero-padding: for every valid call with
`bits_limit > len(src) * bits_in`, every logical bit position at or beyond
`len(src) * bits_in` reads as bit `0` in the output; in particular
`repack(&[0xFFu32, 0xFFu32], 32, 8, 64)` returns
`Ok([0, 0, 0, 0xFF, 0, 0, 0, 0xFF])`. -/
theorem repack_zero_padding :
    (∀ w1 w2 bits_in bits_out bits_limit (src : List Nat),
      1 ≤ bits_in → 1 ≤ bits_out → 1 ≤ bits_limit →
      bits_in ≤ w1 → bits_out ≤ w2 → bits_limit % bits_out = 0 →
      src.length * bits_in < bits_limit →
      ∃ dst, repack w1 w2 src bits_in bits_out bits_limit = Except.ok dst ∧
        ∀ i, src.length * bits_in ≤ i → i < bits_limit →
          Nat.testBit (dst.getD (i / bits_out) 0) (bits_out - i % bits_out - 1) = false) ∧
    repack 32 8 [0xFF, 0xFF] 32 8 64 = Except.ok [0, 0, 0, 0xFF, 0, 0, 0, 0xFF] := by
  constructor
  · intro w1 w2 bits_in bits_out bits_limit src h1 h2 h3 hw1 hw2 ha hpad
    obtain ⟨dst, hok, hinv⟩ := repack_valid src h1 h2 h3 hw1 hw2 ha
    refine ⟨dst, hok, ?_⟩
    intro i hlow hi
    have hread := loopInv_readBit h2 ha hinv hi
    have hsrc0 : specBit src bits_in i = false := by
      have hle : src.length ≤ i / bits_in :=
        (Nat.le_div_iff_mul_le (by omega)).mpr hlow
      show Nat.testBit (src.getD (i / bits_in) 0) (bits_in - i % bits_in - 1) = false
      rw [getD_eq_zero_of_le hle, Nat.zero_testBit]
    exact hread.trans hsrc0
  · rfl

/-- Witness for `repack_zero_padding`: a single `0xFF` source element spread
over a 64-bit output window, so half of the positions are padding. -/
theorem repack_zero_padding_witness :
    ∃ dst, repack 32 8 [0xFF] 32 8 64 = Except.ok dst ∧
      ∀ i, List.length [(0xFF : Nat)] * 32 ≤ i → i < 64 →
        Nat.testBit (dst.getD (i / 8) 0) (8 - i % 8 - 1) = false :=
  repack_zero_padding.1 32 8 32 8 64 [0xFF] (by decide) (by decide) (by decide)
    (by decide) (by decide) (by decide) (by decide)

/-- **C7** — the result of `repack` depends only on the low `bits_in` bits of
each source element: two equal-length sources whose elements are pairwise
congruent modulo `2 ^ bits_in` give identical results under the same valid
parameters. -/
theorem repack_low_bits_only
    (w1 w2 bits_in bits_out bits_limit : Nat) (src1 src2 : List Nat)
    (hlen : src1.length = src2.length)
    (hcong : ∀ k, k < src1.length →
      src1.getD k 0 % 2 ^ bits_in = src2.getD k 0 % 2 ^ bits_in)
    (h1 : 1 ≤ bits_in) (h2 : 1 ≤ bits_out) (h3 : 1 ≤ bits_limit)
    (hw1 : bits_in ≤ w1) (hw2 : bits_out ≤ w2) (ha : bits_limit % bits_out = 0) :
    repack w1 w2 src1 bits_in bits_out bits_limit =
      repack w1 w2 src2 bits_in bits_out bits_limit := by
  have hspec : ∀ i, specBit src1 bits_in i = specBit src2 bits_in i := by
    intro i
    have hp : bits_in - i % bits_in - 1 < bits_in := by omega
    show Nat.testBit (src1.getD (i / bits_in) 0) (bits_in - i % bits_in - 1)
      = Nat.testBit (src2.getD (i / bits_in) 0) (bits_in - i % bits_in - 1)
    by_cases hk : i / bits_in < src1.length
    · have e1 : Nat.testBit (src1.getD (i / bits_in) 0 % 2 ^ bits_in)
          (bits_in - i % bits_in - 1)
          = Nat.testBit (src1.getD (i / bits_in) 0) (bits_in - i % bits_in - 1) := by
        rw [Nat.testBit_mod_two_pow, decide_eq_true hp, Bool.true_and]
      have e2 : Nat.testBit (src2.getD (i / bits_in) 0 % 2 ^ bits_in)
          (bits_in - i % bits_in - 1)
          = Nat.testBit (src2.getD (i / bits_in) 0) (bits_in - i % bits_in - 1) := by
        rw [Nat.testBit_mod_two_pow, decide_eq_true hp, Bool.true_and]
      rw [← e1, ← e2, hcong _ hk]
    · rw [getD_eq_zero_of_le (by omega), getD_eq_zero_of_le (by omega)]
  obtain ⟨dst1, hok1, hlen1, hbit1⟩ := repack_valid src1 h1 h2 h3 hw1 hw2 ha
  obtain ⟨dst2, hok2, hlen2, hbit2⟩ := repack_valid src2 h1 h2 h3 hw1 hw2 ha
  have hdst : dst1 = dst2 := by
    apply list_eq_of_getD (by omega)
    intro j
    apply Nat.eq_of_testBit_eq
    intro p
    apply bool_eq_of_iff
    rw [hbit1, hbit2, hspec]
  rw [hok1, hok2, hdst]

/-- Witness for `repack_low_bits_only`: `13 ≡ 5` and `21 ≡ 5` modulo
`2 ^ 3`, so replacing `[5, 5]` by `[13, 21]` leaves the result unchanged. -/
theorem repack_low_bits_only_witness :
    repack 16 8 [5, 5] 3 2 6 = repack 16 8 [13, 21] 3 2 6 :=
  repack_low_bits_only 16 8 3 2 6 [5, 5] [13, 21] (by decide) (by decide) (by decide)
    (by decide) (by decide) (by decide) (by decide) (by decide)

/-- **C8** — silent truncation: for every valid call with
`bits_limit < len(src) * bits_in`, `repack` still returns `Ok`, and the
result does not depend on any source element at index
`≥ ⌈bits_limit / bits_in⌉` (excess source elements are never read). -/
theorem repack_silent_truncation
    (w1 w2 bits_in bits_out bits_limit : Nat) (src src2 : List Nat)
    (h1 : 1 ≤ bits_in) (h2 : 1 ≤ bits_out) (h3 : 1 ≤ bits_limit)
    (hw1 : bits_in ≤ w1) (hw2 : bits_out ≤ w2) (ha : bits_limit % bits_out = 0)
    (htrunc : bits_limit < src.length * bits_in)
    (hagree : ∀ k, k < (bits_limit + bits_in - 1) / bits_in →
      src.getD k 0 = src2.getD k 0) :
    (∃ dst, repack w1 w2 src bits_in bits_out bits_limit = Except.ok dst) ∧
    repack w1 w2 src bits_in bits_out bits_limit =
      repack w1 w2 src2 bits_in bits_out bits_limit := by
  have hceil : bits_limit ≤ (bits_limit + bits_in - 1) / bits_in * bits_in :=
    le_ceil_mul bits_limit bits_in (by omega)
  have hspec : ∀ i, i < bits_limit → specBit src bits_in i = specBit src2 bits_in i := by
    intro i hi
    have hk : i / bits_in < (bits_limit + bits_in - 1) / bits_in :=
      (Nat.div_lt_iff_lt_mul (by omega)).mpr (by omega)
    show Nat.testBit (src.getD (i / bits_in) 0) (bits_in - i % bits_in - 1)
      = Nat.testBit (src2.getD (i / bits_in) 0) (bits_in - i % bits_in - 1)
    rw [hagree _ hk]
  obtain ⟨dst1, hok1, hlen1, hbit1⟩ := repack_valid src h1 h2 h3 hw1 hw2 ha
  obtain ⟨dst2, hok2, hlen2, hbit2⟩ := repack_valid src2 h1 h2 h3 hw1 hw2 ha
  refine ⟨⟨dst1, hok1⟩, ?_⟩
  have hdst : dst1 = dst2 := by
    apply list_eq_of_getD (by omega)
    intro j
    apply Nat.eq_of_testBit_eq
    intro p
    apply bool_eq_of_iff
    rw [hbit1, hbit2]
    constructor
    · rintro ⟨hjL, hp, hi0, hT⟩
      refine ⟨hjL, hp, hi0, ?_⟩
      rw [← hspec _ hi0]
      exact hT
    · rintro ⟨hjL, hp, hi0, hT⟩
      refine ⟨hjL, hp, hi0, ?_⟩
      rw [hspec _ hi0]
      exact hT
  rw [hok1, hok2, hdst]

/-- Witness for `repack_silent_truncation`: only `⌈4 / 3⌉ = 2` source elements
are read, so the third element is irrelevant. -/
theorem repack_silent_truncation_witness :
    (∃ dst, repack 16 8 [5, 5, 7] 3 2 4 = Except.ok dst) ∧
    repack 16 8 [5, 5, 7] 3 2 4 = repack 16 8 [5, 5, 100] 3 2 4 :=
  repack_silent_truncation 16 8 3 2 4 [5, 5, 7] [5, 5, 100] (by decide) (by decide)
    (by decide) (by decide) (by decide) (by decide) (by decide) (by decide)

/-- **C4 counterexample** — the claim quantifies over *every* source sequence,
but for the empty source (with the legal widths `bits_in = 3 ≤ 16` and
`bits_out = 2 ≤ 8`) the least multiple of `bits_out` that is
`≥ len(src) * bits_in = 0` is `0`, and the first repack call then fails
validation with `InvalidParameter` (`bits_limit < 1`) instead of
succeeding. -/
theorem repack_roundtrip_counterexample :
    2 * ((List.length ([] : List Nat) * 3 + 2 - 1) / 2) = 0 ∧
    repack 16 8 ([] : List Nat) 3 2 0 = Except.error RepackError.invalidParameter :=
  ⟨rfl, rfl⟩

/-- **C4 (amended: the source sequence must be nonempty, i.e.
`len(src) * bits_in ≥ 1`)** — round trip: with `B` the least multiple of
`bits_out` that is `≥ len(src) * bits_in`, repacking with
`(bits_in, bits_out, B)` and then repacking the result back with the roles
swapped and limit `len(src) * bits_in` succeeds and reproduces each original
element's low `bits_in` bits. -/
theorem repack_roundtrip
    (w1 w2 bits_in bits_out : Nat) (src : List Nat)
    (h1 : 1 ≤ bits_in) (h2 : 1 ≤ bits_out)
    (hw1 : bits_in ≤ w1) (hw2 : bits_out ≤ w2)
    (hne : 1 ≤ src.length * bits_in) :
    ∃ mid fin,
      repack w1 w2 src bits_in bits_out
        (bits_out * ((src.length * bits_in + bits_out - 1) / bits_out)) = Except.ok mid ∧
      repack w2 w1 mid bits_out bits_in (src.length * bits_in) = Except.ok fin ∧
      fin.length = src.length ∧
      ∀ j, j < src.length → fin.getD j 0 = src.getD j 0 % 2 ^ bits_in := by
  have hBge : src.length * bits_in ≤
      bits_out * ((src.length * bits_in + bits_out - 1) / bits_out) := by
    rw [Nat.mul_comm bits_out ((src.length * bits_in + bits_out - 1) / bits_out)]
    exact le_ceil_mul (src.length * bits_in) bits_out (by omega)
  have hBmod : bits_out * ((src.length * bits_in + bits_out - 1) / bits_out)
      % bits_out = 0 := Nat.mul_mod_right _ _
  obtain ⟨mid, hok1, hlenmid, hbitmid⟩ :=
    @repack_valid w1 w2 bits_in bits_out
      (bits_out * ((src.length * bits_in + bits_out - 1) / bits_out)) src
      h1 h2 (by omega) hw1 hw2 hBmod
  have hL2 : src.length * bits_in / bits_in = src.length :=
    Nat.mul_div_cancel _ (by omega)
  obtain ⟨fin, hok2, hlenfin, hbitfin⟩ :=
    @repack_valid w2 w1 bits_out bits_in (src.length * bits_in) mid
      h2 h1 hne hw2 hw1 (Nat.mul_mod_left _ _)
  refine ⟨mid, fin, hok1, hok2, by rw [hlenfin, hL2], ?_⟩
  intro j hj
  apply Nat.eq_of_testBit_eq
  intro p
  by_cases hp : p < bits_in
  · have hrlt : bits_in - 1 - p < bits_in := by omega
    have hdm := @div_mod_unique_aux bits_in j (bits_in - 1 - p)
      (j * bits_in + (bits_in - 1 - p)) (by omega) hrlt rfl
    have hi0len : j * bits_in + (bits_in - 1 - p) < src.length * bits_in :=
      (Nat.div_lt_iff_lt_mul (by omega)).mp (by rw [← hdm.1]; exact hj)
    have hspec_eq : specBit mid bits_out (j * bits_in + (bits_in - 1 - p))
        = Nat.testBit (src.getD j 0) p := by
      rw [loopInv_readBit h2 hBmod ⟨hlenmid, hbitmid⟩ (by omega)]
      show Nat.testBit
        (src.getD ((j * bits_in + (bits_in - 1 - p)) / bits_in) 0)
        (bits_in - (j * bits_in + (bits_in - 1 - p)) % bits_in - 1) = _
      rw [← hdm.1, ← hdm.2]
      congr 1
      omega
    apply bool_eq_of_iff
    rw [hbitfin, Nat.testBit_mod_two_pow]
    simp only [Bool.and_eq_true, decide_eq_true_eq]
    constructor
    · rintro ⟨hjL, hp', hi0, hT⟩
      refine ⟨hp', ?_⟩
      rw [← hspec_eq]
      exact hT
    · rintro ⟨hp', hT⟩
      refine ⟨?_, hp', hi0len, ?_⟩
      · rw [hL2]
        exact hj
      · rw [hspec_eq]
        exact hT
  · have hl : Nat.testBit (fin.getD j 0) p = false := by
      cases h : Nat.testBit (fin.getD j 0) p
      · rfl
      · exfalso
        obtain ⟨_, hplt, _, _⟩ := (hbitfin j p).mp h
        omega
    rw [hl, Nat.testBit_mod_two_pow]
    simp [hp]

/-- Witness for `repack_roundtrip` at the source's doc example
`[5u16, 5u16]` with `bits_in = 3`, `bits_out = 2`:
`B = 2 * ⌈6 / 2⌉ = 6`. -/
theorem repack_roundtrip_witness :
    ∃ mid fin,
      repack 16 8 [5, 5] 3 2
        (2 * ((List.length [(5 : Nat), 5] * 3 + 2 - 1) / 2)) = Except.ok mid ∧
      repack 8 16 mid 2 3 (List.length [(5 : Nat), 5] * 3) = Except.ok fin ∧
      fin.length = List.length [(5 : Nat), 5] ∧
      ∀ j, j < List.length [(5 : Nat), 5] →
        fin.getD j 0 = List.getD [5, 5] j 0 % 2 ^ 3 :=
  repack_roundtrip 16 8 3 2 [5, 5] (by decide) (by decide) (by decide) (by decide)
    (by decide)

end Bits
